import Mathlib

/-!
Verification of the bounded neighbor-observation cache implemented in
`examples/rime/example-broadcast.c`.

The C program keeps a Contiki intrusive list `neighbors_list` of
`struct neighbor` records (a link address and the last observed RSSI),
backed by a fixed memory pool `neighbors_memb` of `MAX_NEIGHBORS` slots.
The receive callback `broadcast_recv` updates a known neighbor in place,
appends an unknown neighbor when a pool slot is free, evicts the list
tail when the pool is exhausted and the newcomer has strictly larger
RSSI, and otherwise rejects the observation.  After every mutation the
list is re-sorted by `sort_list_based_on_rssi`, a loop that moves the
later element of the first adjacent out-of-order pair to the head of the
list and restarts the scan.

The embedding below models the list as a `List Neighbor`, the pool
occupancy as a natural number, and the receive callback as a function
returning `Option (CacheState × Outcome)` where `none` marks a NULL
pointer dereference (an execution the C code does not define).
Addresses are modelled as naturals: the C code only copies link
addresses and compares them for equality (`linkaddr_copy`,
`linkaddr_cmp`), so any type with decidable equality is faithful.
RSSI values are 16-bit unsigned integers that the C code only compares,
never adds, so naturals are faithful as well.
-/

/-- One entry of `neighbors_list`: the link address of the neighbor and
the RSSI of the last broadcast heard from it (`struct neighbor`). -/
structure Neighbor where
  addr : Nat
  last_rssi : Nat
deriving DecidableEq

/-- The maximum number of neighbors remembered, `#define MAX_NEIGHBORS 5`. -/
def MAX_NEIGHBORS : Nat := 5

/-- The scan of the `while` loop in `sort_list_based_on_rssi`: find the
first adjacent pair whose later element has strictly larger RSSI and
return that element together with the list it was removed from.  The C
loop then pushes the returned element onto the head of the list
(`list_remove` followed by `list_push`) and restarts the scan, which is
exactly a new call of this function on the reassembled list. -/
def findInv : List Neighbor → Option (Neighbor × List Neighbor)
  | a :: b :: t =>
    if a.last_rssi < b.last_rssi then
      some (b, a :: t)
    else
      match findInv (b :: t) with
      | some (x, r) => some (x, a :: r)
      | none => none
  | _ => none

/-- Weight of the inversions formed by `a` against the elements of a
list: each element of the list with RSSI strictly larger than that of
`a` contributes two to the power of its position.  Auxiliary to the
termination measure of the sort loop. -/
def wgt (a : Neighbor) : List Neighbor → Nat
  | [] => 0
  | b :: t => (if a.last_rssi < b.last_rssi then 1 else 0) + 2 * wgt a t

/-- Termination measure for the sort loop: the sum, over all pairs of
positions i < j whose earlier element has strictly smaller RSSI, of two
to the power j.  Every iteration of the C loop that performs a swap
strictly decreases this measure, which bounds the number of swaps. -/
def invMeasure : List Neighbor → Nat
  | [] => 0
  | a :: t => 2 * wgt a t + 2 * invMeasure t

/-- The sort loop with an explicit iteration budget: as long as budget
remains and the scan finds an out-of-order element, move it to the head
and continue.  `invMeasure l` iterations are proved sufficient for the
scan to come back empty, so running with that budget is the behavior of
the terminating C loop. -/
def sortIter : Nat → List Neighbor → List Neighbor
  | 0, l => l
  | k + 1, l =>
    match findInv l with
    | none => l
    | some (x, r) => sortIter k (x :: r)

/-- The C function `sort_list_based_on_rssi`: iterate the
move-to-front step until no adjacent pair is out of order. -/
def sort_list_based_on_rssi (l : List Neighbor) : List Neighbor :=
  sortIter (invMeasure l) l

/-- The sort invariant of the neighbor table: adjacent RSSI values are
non-increasing from head to tail. -/
def sortedDesc (l : List Neighbor) : Prop :=
  List.Chain' (fun u v => v.last_rssi ≤ u.last_rssi) l

/-- Executable check of the sort invariant, for evaluating concrete
tables. -/
def sortedDescB : List Neighbor → Bool
  | a :: b :: t => (b.last_rssi ≤ a.last_rssi) && sortedDescB (b :: t)
  | _ => true

theorem sortedDescB_iff (l : List Neighbor) :
    sortedDescB l = true ↔ sortedDesc l := by
  induction l with
  | nil => simp [sortedDescB, sortedDesc]
  | cons a t ih =>
    cases t with
    | nil => simp [sortedDescB, sortedDesc]
    | cons b t' =>
      have h2 : sortedDesc (a :: b :: t') ↔
          b.last_rssi ≤ a.last_rssi ∧ sortedDesc (b :: t') := by
        simp only [sortedDesc, List.chain'_cons]
      rw [h2, ← ih]
      simp [sortedDescB]

instance sortedDesc.instDecidable (l : List Neighbor) : Decidable (sortedDesc l) :=
  decidable_of_iff (sortedDescB l = true) (sortedDescB_iff l)

/-- The scan finds nothing exactly on tables satisfying the sort
invariant: this is the exit condition of the C while loop. -/
theorem findInv_eq_none_iff (l : List Neighbor) :
    findInv l = none ↔ sortedDesc l := by
  induction l with
  | nil => simp [findInv, sortedDesc]
  | cons a t ih =>
    cases t with
    | nil => simp [findInv, sortedDesc]
    | cons b t' =>
      by_cases hab : a.last_rssi < b.last_rssi
      · constructor
        · intro h
          simp [findInv, hab] at h
        · intro h
          rcases List.chain'_cons.mp h with ⟨hba, _⟩
          omega
      · have hstep : findInv (a :: b :: t') = none ↔ findInv (b :: t') = none := by
          simp only [findInv, if_neg hab]
          cases findInv (b :: t') with
          | none => simp
          | some p => cases p; simp
        rw [hstep, ih]
        show sortedDesc (b :: t') ↔ _
        simp only [sortedDesc, List.chain'_cons]
        constructor
        · intro h; exact ⟨by omega, h⟩
        · intro h; exact h.2

/-- A successful scan returns a permutation decomposition: moving the
found element to the head permutes the list. -/
theorem findInv_perm {l : List Neighbor} {x : Neighbor} {r : List Neighbor}
    (h : findInv l = some (x, r)) : (x :: r).Perm l := by
  induction l generalizing x r with
  | nil => simp [findInv] at h
  | cons a t ih =>
    cases t with
    | nil => simp [findInv] at h
    | cons b t' =>
      by_cases hab : a.last_rssi < b.last_rssi
      · simp only [findInv, if_pos hab, Option.some.injEq, Prod.mk.injEq] at h
        rcases h with ⟨hx, hr⟩
        subst hx; subst hr
        exact List.Perm.swap a b t'
      · cases hfi : findInv (b :: t') with
        | none => simp [findInv, hab, hfi] at h
        | some p =>
          rcases p with ⟨y, w⟩
          simp only [findInv, if_neg hab, hfi, Option.some.injEq, Prod.mk.injEq] at h
          rcases h with ⟨hx, hr⟩
          subst hx; subst hr
          exact (List.Perm.swap a y w).trans ((ih hfi).cons a)

/-- If every element of a list has RSSI at most that of `a`, then `a`
forms no inversion against the list. -/
theorem wgt_eq_zero {a : Neighbor} {u : List Neighbor}
    (h : ∀ e ∈ u, e.last_rssi ≤ a.last_rssi) : wgt a u = 0 := by
  induction u with
  | nil => rfl
  | cons b t ih =>
    have hb : b.last_rssi ≤ a.last_rssi := h b (by simp)
    have ht : wgt a t = 0 := ih (fun e he => h e (by simp [he]))
    simp [wgt, ht]
    omega

/-- Inserting one element into a list at most doubles the inversion
weight of `a` against it, provided `a` has no inversion against the
part before the insertion point. -/
theorem wgt_insert_le (a x : Neighbor) (u v : List Neighbor)
    (h0 : wgt a u = 0) :
    2 * wgt a (u ++ v) ≤ wgt a (u ++ x :: v) := by
  induction u with
  | nil =>
    simp only [List.nil_append, wgt]
    omega
  | cons b t ih =>
    have hb : (if a.last_rssi < b.last_rssi then 1 else 0) = 0 ∧ wgt a t = 0 := by
      simp only [wgt] at h0
      omega
    have hih := ih hb.2
    simp only [List.cons_append, List.append_eq, wgt, hb.1] at hih ⊢
    omega

/-- Key inequality behind termination of the sort loop: moving `x` over
an inversion-free block `p ++ [g]` with `g.last_rssi < x.last_rssi` to
the head strictly decreases the inversion measure (by at least two). -/
theorem invMeasure_move_lt (x g : Neighbor) (p s : List Neighbor)
    (h0 : invMeasure (p ++ [g]) = 0) (hg : g.last_rssi < x.last_rssi) :
    invMeasure (x :: (p ++ g :: s)) + 2 ≤ invMeasure (p ++ g :: x :: s) := by
  induction p with
  | nil =>
    simp only [List.nil_append, invMeasure, wgt, if_pos hg,
      if_neg (by omega : ¬ x.last_rssi < g.last_rssi)]
    omega
  | cons a p' ih =>
    have hsplit : wgt a (p' ++ [g]) = 0 ∧ invMeasure (p' ++ [g]) = 0 := by
      simp only [List.cons_append, List.append_eq, invMeasure] at h0
      omega
    have hIH := ih hsplit.2
    have hw : 2 * wgt a ((p' ++ [g]) ++ s) ≤ wgt a ((p' ++ [g]) ++ x :: s) :=
      wgt_insert_le a x (p' ++ [g]) s hsplit.1
    have hxa : (if x.last_rssi < a.last_rssi then 1 else 0) ≤ 1 := by
      by_cases hc : x.last_rssi < a.last_rssi <;> simp [hc]
    simp only [List.append_assoc, List.singleton_append, List.append_eq] at hw
    simp only [List.cons_append, List.append_eq, invMeasure, wgt] at hIH ⊢
    omega


/-- Structure of a successful scan: the elements before the found
out-of-order element form a block with no inversion against the head,
the element just before the found one has strictly smaller RSSI, and
removing the found element splices the block back together. -/
theorem findInv_decomp {l : List Neighbor} {x : Neighbor} {r : List Neighbor}
    (h : findInv l = some (x, r)) :
    ∃ p g s hd, l = p ++ g :: x :: s ∧ r = p ++ g :: s ∧
      g.last_rssi < x.last_rssi ∧ l.head? = some hd ∧
      (∀ e ∈ p ++ [g], e.last_rssi ≤ hd.last_rssi) ∧
      invMeasure (p ++ [g]) = 0 := by
  induction l generalizing x r with
  | nil => simp [findInv] at h
  | cons a t ih =>
    cases t with
    | nil => simp [findInv] at h
    | cons b t' =>
      by_cases hab : a.last_rssi < b.last_rssi
      · simp only [findInv, if_pos hab, Option.some.injEq, Prod.mk.injEq] at h
        rcases h with ⟨hx, hr⟩
        subst hx; subst hr
        refine ⟨[], a, t', a, by simp, by simp, hab, rfl, ?_, ?_⟩
        · intro e he
          simp at he
          simp [he]
        · simp [invMeasure, wgt]
      · cases hfi : findInv (b :: t') with
        | none => simp [findInv, hab, hfi] at h
        | some q =>
          rcases q with ⟨y, w⟩
          simp only [findInv, if_neg hab, hfi, Option.some.injEq, Prod.mk.injEq] at h
          rcases h with ⟨hx, hr⟩
          subst hx; subst hr
          obtain ⟨p', g, s, hd', hl', hr', hg', hhd', hle', h0'⟩ := ih hfi
          have hdb : b = hd' := by simpa using hhd'
          rw [← hdb] at hle'
          have hba : b.last_rssi ≤ a.last_rssi := by omega
          have hbound : ∀ e ∈ p' ++ [g], e.last_rssi ≤ a.last_rssi :=
            fun e he => le_trans (hle' e he) hba
          refine ⟨a :: p', g, s, a, by simp [hl'], by simp [hr'], hg', rfl, ?_, ?_⟩
          · intro e he
            simp only [List.cons_append, List.mem_cons] at he
            rcases he with h1 | h1
            · simp [h1]
            · exact hbound e h1
          · have hwz : wgt a (p' ++ [g]) = 0 := wgt_eq_zero hbound
            simp only [List.cons_append, List.append_eq, invMeasure, hwz, h0']

/-- Every swap performed by the while loop of `sort_list_based_on_rssi`
decreases the inversion measure by at least two. -/
theorem findInv_measure_lt {l : List Neighbor} {x : Neighbor} {r : List Neighbor}
    (h : findInv l = some (x, r)) : invMeasure (x :: r) + 2 ≤ invMeasure l := by
  obtain ⟨p, g, s, hd, hl, hr, hg, hhd, hle, h0⟩ := findInv_decomp h
  rw [hl, hr]
  exact invMeasure_move_lt x g p s h0 hg

/-- With a budget of at least the inversion measure, the sort loop
reaches a state in which the scan finds nothing: the while loop exits. -/
theorem sortIter_fix : ∀ (k : Nat) (l : List Neighbor), invMeasure l ≤ k →
    findInv (sortIter k l) = none := by
  intro k
  induction k with
  | zero =>
    intro l hl
    cases hfi : findInv l with
    | none => simp [sortIter, hfi]
    | some q =>
      rcases q with ⟨x, r⟩
      have := findInv_measure_lt hfi
      omega
  | succ k ih =>
    intro l hl
    cases hfi : findInv l with
    | none => simp [sortIter, hfi]
    | some q =>
      rcases q with ⟨x, r⟩
      have hlt := findInv_measure_lt hfi
      simp only [sortIter, hfi]
      exact ih (x :: r) (by omega)

/-- Once the scan finds nothing, further iterations of the sort loop do
not change the list. -/
theorem sortIter_of_none {l : List Neighbor} (h : findInv l = none) :
    ∀ m, sortIter m l = l := by
  intro m
  cases m with
  | zero => rfl
  | succ m => simp [sortIter, h]

/-- The sort loop is stable under extra budget: any budget of at least
the inversion measure produces the same result.  This is what makes the
budgeted model the terminating while loop itself. -/
theorem sortIter_stable : ∀ (k : Nat) (l : List Neighbor), invMeasure l ≤ k →
    ∀ m, sortIter (k + m) l = sortIter k l := by
  intro k
  induction k with
  | zero =>
    intro l hl m
    have hfi : findInv l = none := by
      cases hfi : findInv l with
      | none => rfl
      | some q =>
        rcases q with ⟨x, r⟩
        have := findInv_measure_lt hfi
        omega
    rw [sortIter_of_none hfi, sortIter_of_none hfi]
  | succ k ih =>
    intro l hl m
    cases hfi : findInv l with
    | none =>
      rw [sortIter_of_none hfi, sortIter_of_none hfi]
    | some q =>
      rcases q with ⟨x, r⟩
      have hlt := findInv_measure_lt hfi
      have hstep : k + 1 + m = (k + m) + 1 := by omega
      rw [hstep]
      simp only [sortIter, hfi]
      exact ih (x :: r) (by omega) m

/-- Each iteration of the sort loop permutes the list, so any budget
yields a permutation of the input. -/
theorem sortIter_perm : ∀ (k : Nat) (l : List Neighbor), (sortIter k l).Perm l := by
  intro k
  induction k with
  | zero => intro l; exact List.Perm.refl l
  | succ k ih =>
    intro l
    cases hfi : findInv l with
    | none => simp [sortIter, hfi]
    | some q =>
      rcases q with ⟨x, r⟩
      simp only [sortIter, hfi]
      exact (ih (x :: r)).trans (findInv_perm hfi)

/-- `sort_list_based_on_rssi` establishes the sort invariant. -/
theorem sort_list_sorted (l : List Neighbor) :
    sortedDesc (sort_list_based_on_rssi l) :=
  (findInv_eq_none_iff _).mp (sortIter_fix (invMeasure l) l le_rfl)

/-- `sort_list_based_on_rssi` permutes the table: no record is created,
destroyed or modified by sorting. -/
theorem sort_list_perm (l : List Neighbor) :
    (sort_list_based_on_rssi l).Perm l :=
  sortIter_perm (invMeasure l) l

/-- Sorting preserves the length of the table. -/
theorem sort_list_length (l : List Neighbor) :
    (sort_list_based_on_rssi l).length = l.length :=
  (sort_list_perm l).length_eq

/-- Distinguishable outcomes of one call of `broadcast_recv`: the
known-neighbor update path, the allocate-and-append path, the
evict-then-append path, and the early return that rejects a newcomer
whose RSSI does not beat the current weakest entry. -/
inductive Outcome where
  | updated
  | added
  | evicted
  | rejected
deriving DecidableEq

/-- The mutable globals of the C program that the receive callback
touches: the contents of `neighbors_list` (in list order, head first)
and the number of slots of `neighbors_memb` currently allocated. -/
structure CacheState where
  table : List Neighbor
  used : Nat
deriving DecidableEq

/-- The state at process start: empty list, empty pool. -/
def initState : CacheState := ⟨[], 0⟩

/-- The in-place update of the first record whose address matches:
`n->last_rssi = new_mote_rssi` for the `n` found by the lookup loop. -/
def updateFirst : List Neighbor → Nat → Nat → List Neighbor
  | [], _, _ => []
  | n :: t, a, q =>
    if n.addr = a then { n with last_rssi := q } :: t
    else n :: updateFirst t a q

/-- The body of `broadcast_recv` for a pool of `cap` slots
(`cap = MAX_NEIGHBORS` in the C program), receiving a broadcast from
address `src` with RSSI `rssi`.  Returns `none` exactly when the C code
dereferences a NULL pointer: either `list_tail` returns NULL on an
empty list in the eviction branch, or the second `memb_alloc` fails and
`linkaddr_copy` writes through NULL.  Otherwise returns the new global
state and which path was taken. -/
def broadcast_recv (cap : Nat) (s : CacheState) (src : Nat) (rssi : Nat) :
    Option (CacheState × Outcome) :=
  if s.table.any (fun n => n.addr = src) then
    -- the lookup loop found the sender: update in place, then sort
    some (⟨sort_list_based_on_rssi (updateFirst s.table src rssi), s.used⟩,
      Outcome.updated)
  else if s.used < cap then
    -- memb_alloc succeeded: append the new record, set its RSSI, sort
    some (⟨sort_list_based_on_rssi (s.table ++ [⟨src, rssi⟩]), s.used + 1⟩,
      Outcome.added)
  else
    match s.table.getLast? with
    | none => none
    | some w =>
      if w.last_rssi < rssi then
        if s.used - 1 < cap then
          -- remove the tail, free its slot, re-allocate, append, sort
          some (⟨sort_list_based_on_rssi (s.table.dropLast ++ [⟨src, rssi⟩]),
            s.used - 1 + 1⟩, Outcome.evicted)
        else none
      else
        -- newcomer does not beat the weakest entry: early return
        some (s, Outcome.rejected)

/-- One observation fed through the callback, starting from an optional
state (`none` once a NULL dereference has occurred). -/
def observeOpt (cap : Nat) (os : Option CacheState) (o : Nat × Nat) :
    Option CacheState :=
  os.bind fun s => (broadcast_recv cap s o.1 o.2).map Prod.fst

/-- Deliver a sequence of observations (address, RSSI) to the callback,
starting from the initial empty state. -/
def run (cap : Nat) (obs : List (Nat × Nat)) : Option CacheState :=
  obs.foldl (observeOpt cap) (some initState)

/-- The in-place update keeps every address in place: only a
`last_rssi` field is written. -/
theorem updateFirst_map_addr (l : List Neighbor) (a q : Nat) :
    (updateFirst l a q).map Neighbor.addr = l.map Neighbor.addr := by
  induction l with
  | nil => rfl
  | cons n t ih =>
    by_cases h : n.addr = a <;> simp [updateFirst, h, ih]

/-- The in-place update does not change the number of records. -/
theorem updateFirst_length (l : List Neighbor) (a q : Nat) :
    (updateFirst l a q).length = l.length := by
  have h := congrArg List.length (updateFirst_map_addr l a q)
  simpa using h

/-- The lookup loop of `broadcast_recv` finds a record exactly when the
sender address occurs in the table. -/
theorem any_addr_iff (l : List Neighbor) (src : Nat) :
    l.any (fun n => n.addr = src) = true ↔ src ∈ l.map Neighbor.addr := by
  simp [List.any_eq_true]

/-- Under the sort invariant the list tail has minimal RSSI among all
records: the eviction branch really removes a weakest record, and the
tail comparison in `broadcast_recv` really compares against the current
minimum quality. -/
theorem sortedDesc_getLast_min {l : List Neighbor} {w : Neighbor}
    (hs : sortedDesc l) (hw : l.getLast? = some w) :
    ∀ n ∈ l, w.last_rssi ≤ n.last_rssi := by
  haveI : IsTrans Neighbor (fun u v => v.last_rssi ≤ u.last_rssi) :=
    ⟨fun a b c h1 h2 => le_trans h2 h1⟩
  have hp : l.Pairwise (fun u v => v.last_rssi ≤ u.last_rssi) :=
    List.chain'_iff_pairwise.mp hs
  have hl : l.dropLast ++ [w] = l := List.dropLast_append_getLast? w hw
  intro n hn
  rw [← hl] at hn hp
  rcases List.mem_append.mp hn with h1 | h1
  · exact (List.pairwise_append.mp hp).2.2 n h1 w (by simp)
  · simp only [List.mem_singleton] at h1
    subst h1
    exact le_rfl

/-- The global invariant of the C program: the pool occupancy equals
the list length, the table fits in the pool, the table satisfies the
sort invariant, and no address occurs twice. -/
def CacheInv (cap : Nat) (s : CacheState) : Prop :=
  s.used = s.table.length ∧ s.table.length ≤ cap ∧ sortedDesc s.table ∧
    (s.table.map Neighbor.addr).Nodup

/-- One call of `broadcast_recv` from an invariant state with a
non-empty pool never dereferences NULL and re-establishes the
invariant. -/
theorem broadcast_recv_preserves (cap : Nat) (hcap : 1 ≤ cap)
    (s : CacheState) (hs : CacheInv cap s) (src rssi : Nat) :
    ∃ s' o, broadcast_recv cap s src rssi = some (s', o) ∧ CacheInv cap s' := by
  obtain ⟨hused, hlen, hsort, hnd⟩ := hs
  by_cases hfound : s.table.any (fun n => n.addr = src)
  · refine ⟨⟨sort_list_based_on_rssi (updateFirst s.table src rssi), s.used⟩,
      Outcome.updated, by simp [broadcast_recv, hfound], ?_, ?_,
      sort_list_sorted _, ?_⟩
    · simp [sort_list_length, updateFirst_length, hused]
    · simp [sort_list_length, updateFirst_length, hlen]
    · have hperm := (sort_list_perm (updateFirst s.table src rssi)).map Neighbor.addr
      rw [hperm.nodup_iff, updateFirst_map_addr]
      exact hnd
  · have hnotin : src ∉ s.table.map Neighbor.addr := fun hc =>
      hfound ((any_addr_iff s.table src).mpr hc)
    by_cases hroom : s.used < cap
    · refine ⟨⟨sort_list_based_on_rssi (s.table ++ [⟨src, rssi⟩]), s.used + 1⟩,
        Outcome.added, by simp [broadcast_recv, hfound, hroom], ?_, ?_,
        sort_list_sorted _, ?_⟩
      · simp [sort_list_length, hused]
      · simp only [sort_list_length, List.length_append, List.length_singleton]
        omega
      · have hperm := (sort_list_perm (s.table ++ [⟨src, rssi⟩])).map Neighbor.addr
        rw [hperm.nodup_iff]
        simp only [List.map_append, List.map_singleton]
        simp [List.nodup_append, hnd, hnotin]
    · have hfull : s.table.length = cap := by omega
      have hne : s.table ≠ [] := by
        intro hc
        rw [hc] at hfull
        simp at hfull
        omega
      obtain ⟨w, hw⟩ : ∃ w, s.table.getLast? = some w := by
        cases hlast : s.table.getLast? with
        | none => exact absurd (List.getLast?_eq_none_iff.mp hlast) hne
        | some w => exact ⟨w, rfl⟩
      by_cases hbeat : w.last_rssi < rssi
      · have hre : s.used - 1 < cap := by omega
        refine ⟨⟨sort_list_based_on_rssi (s.table.dropLast ++ [⟨src, rssi⟩]),
          s.used - 1 + 1⟩, Outcome.evicted,
          by simp [broadcast_recv, hfound, hroom, hw, hbeat, hre], ?_, ?_,
          sort_list_sorted _, ?_⟩
        · simp only [sort_list_length, List.length_append, List.length_singleton,
            List.length_dropLast]
          omega
        · simp only [sort_list_length, List.length_append, List.length_singleton,
            List.length_dropLast]
          omega
        · have hperm := (sort_list_perm (s.table.dropLast ++ [⟨src, rssi⟩])).map
            Neighbor.addr
          rw [hperm.nodup_iff]
          simp only [List.map_append, List.map_singleton]
          have hsub : ((s.table.map Neighbor.addr).dropLast).Sublist
              (s.table.map Neighbor.addr) :=
            List.dropLast_sublist (s.table.map Neighbor.addr)
          have hnd' : ((s.table.map Neighbor.addr).dropLast).Nodup := hnd.sublist hsub
          have hni : src ∉ (s.table.map Neighbor.addr).dropLast := fun hc =>
            hnotin (hsub.mem hc)
          simp [List.nodup_append, hnd', hni]
      · exact ⟨s, Outcome.rejected,
          by simp [broadcast_recv, hfound, hroom, hw, hbeat],
          hused, hlen, hsort, hnd⟩

/-- Delivering any sequence of observations from any invariant state
with a non-empty pool stays defined and invariant. -/
theorem foldl_observeOpt_inv (cap : Nat) (hcap : 1 ≤ cap) :
    ∀ (obs : List (Nat × Nat)) (s : CacheState), CacheInv cap s →
      ∃ s', obs.foldl (observeOpt cap) (some s) = some s' ∧ CacheInv cap s' := by
  intro obs
  induction obs with
  | nil => intro s hs; exact ⟨s, rfl, hs⟩
  | cons o rest ih =>
    intro s hs
    obtain ⟨s', _, hstep, hinv⟩ := broadcast_recv_preserves cap hcap s hs o.1 o.2
    have hone : observeOpt cap (some s) o = some s' := by
      simp [observeOpt, hstep]
    rw [List.foldl_cons, hone]
    exact ih s' hinv

/-- The initial state satisfies the invariant. -/
theorem initState_inv (cap : Nat) : CacheInv cap initState :=
  ⟨rfl, by simp [initState], by simp [initState, sortedDesc], by simp [initState]⟩

/-- Any run from the empty table with a non-empty pool reaches a
defined, invariant state. -/
theorem run_inv (cap : Nat) (hcap : 1 ≤ cap) (obs : List (Nat × Nat)) :
    ∃ s, run cap obs = some s ∧ CacheInv cap s :=
  foldl_observeOpt_inv cap hcap obs initState (initState_inv cap)

/-- Helper: the record returned by `list_tail` is a member of the list. -/
theorem mem_of_getLast?_eq {l : List Neighbor} {w : Neighbor}
    (h : l.getLast? = some w) : w ∈ l := by
  rw [← List.dropLast_append_getLast? w h]
  simp

/-- Claim C1: for every sequence of observations delivered to
`broadcast_recv`, after each call returns the table is in
non-increasing order of signal quality: every run from the initial
state is defined and ends in a table satisfying the sort invariant
(and every prefix of a sequence is itself such a run). -/
theorem observe_table_sorted (obs : List (Nat × Nat)) :
    ∃ s, run MAX_NEIGHBORS obs = some s ∧ sortedDesc s.table := by
  obtain ⟨s, hrun, hinv⟩ := run_inv MAX_NEIGHBORS (by decide) obs
  exact ⟨s, hrun, hinv.2.2.1⟩

/-- Claim C4: for every sequence of observations starting from the
empty table, the table size never exceeds `MAX_NEIGHBORS`. -/
theorem observe_table_bounded (obs : List (Nat × Nat)) :
    ∃ s, run MAX_NEIGHBORS obs = some s ∧ s.table.length ≤ MAX_NEIGHBORS := by
  obtain ⟨s, hrun, hinv⟩ := run_inv MAX_NEIGHBORS (by decide) obs
  exact ⟨s, hrun, hinv.2.1⟩

/-- Claim C5: for every sequence of observations starting from the
empty table, at no point does the table contain two records with the
same address. -/
theorem observe_addresses_nodup (obs : List (Nat × Nat)) :
    ∃ s, run MAX_NEIGHBORS obs = some s ∧ (s.table.map Neighbor.addr).Nodup := by
  obtain ⟨s, hrun, hinv⟩ := run_inv MAX_NEIGHBORS (by decide) obs
  exact ⟨s, hrun, hinv.2.2.2⟩

/-- Claim C6: observing a known address takes the update path: the new
table is a permutation of the old table with only the first matching
record's `last_rssi` replaced (so every other record keeps its address
and quality and no record is added or removed), the table size is
unchanged (in particular it never increases), and the pool occupancy is
unchanged. -/
theorem observe_update_in_place (cap : Nat) (s : CacheState) (src rssi : Nat)
    (h : src ∈ s.table.map Neighbor.addr) :
    ∃ s', broadcast_recv cap s src rssi = some (s', Outcome.updated) ∧
      s'.table.Perm (updateFirst s.table src rssi) ∧
      s'.table.length = s.table.length ∧ s'.used = s.used := by
  have hfound : s.table.any (fun n => n.addr = src) = true :=
    (any_addr_iff s.table src).mpr h
  refine ⟨⟨sort_list_based_on_rssi (updateFirst s.table src rssi), s.used⟩,
    by simp [broadcast_recv, hfound], sort_list_perm _, ?_, rfl⟩
  simp [sort_list_length, updateFirst_length]

/-- Witness for claim C6 at a concrete input: updating address 2 in a
two-record table. -/
theorem observe_update_in_place_witness :
    (2 : Nat) ∈ (([⟨1, 10⟩, ⟨2, 7⟩] : List Neighbor).map Neighbor.addr) ∧
    ∃ s', broadcast_recv 5 ⟨[⟨1, 10⟩, ⟨2, 7⟩], 2⟩ 2 3 = some (s', Outcome.updated) ∧
      s'.table.Perm (updateFirst [⟨1, 10⟩, ⟨2, 7⟩] 2 3) ∧
      s'.table.length = ([⟨1, 10⟩, ⟨2, 7⟩] : List Neighbor).length ∧ s'.used = 2 :=
  ⟨by decide, observe_update_in_place 5 ⟨[⟨1, 10⟩, ⟨2, 7⟩], 2⟩ 2 3 (by decide)⟩

/-- Claim C2: when the table is full (pool exhausted, `MAX_NEIGHBORS`
records) and satisfies the sort invariant, an unknown address with
quality strictly greater than the current minimum evicts the weakest
record: the tail record (which has the minimum quality) occurs one time
fewer, the new record is present, and the table size and pool occupancy
are unchanged. -/
theorem observe_eviction (s : CacheState) (src rssi : Nat) (w : Neighbor)
    (hu : s.used = MAX_NEIGHBORS) (hl : s.table.length = MAX_NEIGHBORS)
    (hsort : sortedDesc s.table) (hnew : src ∉ s.table.map Neighbor.addr)
    (hw : s.table.getLast? = some w) (hq : w.last_rssi < rssi) :
    ∃ s', broadcast_recv MAX_NEIGHBORS s src rssi = some (s', Outcome.evicted) ∧
      s'.table.length = MAX_NEIGHBORS ∧
      (⟨src, rssi⟩ : Neighbor) ∈ s'.table ∧
      (∀ n ∈ s.table, w.last_rssi ≤ n.last_rssi) ∧
      s'.table.count w + 1 = s.table.count w ∧
      s'.used = MAX_NEIGHBORS := by
  have hfound : ¬ (s.table.any (fun n => n.addr = src) = true) := fun hc =>
    hnew ((any_addr_iff s.table src).mp hc)
  have hroom : ¬ s.used < MAX_NEIGHBORS := by omega
  have hre : s.used - 1 < MAX_NEIGHBORS := by
    rw [hu]; decide
  refine ⟨⟨sort_list_based_on_rssi (s.table.dropLast ++ [⟨src, rssi⟩]),
    s.used - 1 + 1⟩,
    by simp [broadcast_recv, hfound, hroom, hw, hq, hre], ?_, ?_, ?_, ?_, ?_⟩
  · simp only [sort_list_length, List.length_append, List.length_singleton,
      List.length_dropLast]
    omega
  · exact ((sort_list_perm _).mem_iff).mpr (by simp)
  · exact sortedDesc_getLast_min hsort hw
  · have hwmem : w ∈ s.table := mem_of_getLast?_eq hw
    have hwne : w ≠ (⟨src, rssi⟩ : Neighbor) := by
      intro hc
      apply hnew
      have haddr : w.addr = src := by rw [hc]
      rw [← haddr]
      exact List.mem_map_of_mem Neighbor.addr hwmem
    have hsplit : s.table.dropLast ++ [w] = s.table :=
      List.dropLast_append_getLast? w hw
    have hc1 : s.table.count w = s.table.dropLast.count w + 1 := by
      conv_lhs => rw [← hsplit]
      rw [List.count_append]
      simp
    have hc0 : ([⟨src, rssi⟩] : List Neighbor).count w = 0 := by
      apply List.count_eq_zero_of_not_mem
      simp only [List.mem_singleton]
      exact hwne
    have hc2 : (sort_list_based_on_rssi
        (s.table.dropLast ++ [⟨src, rssi⟩])).count w = s.table.dropLast.count w := by
      rw [(sort_list_perm _).count_eq, List.count_append, hc0]
      omega
    show (sort_list_based_on_rssi
        (s.table.dropLast ++ [⟨src, rssi⟩])).count w + 1 = s.table.count w
    omega
  · show s.used - 1 + 1 = MAX_NEIGHBORS
    omega

/-- Witness for claim C2 at a concrete input: a full sorted table of
five records, newcomer with quality 15 beating the minimum 10. -/
theorem observe_eviction_witness :
    ∃ s', broadcast_recv MAX_NEIGHBORS
        ⟨[⟨1, 50⟩, ⟨2, 40⟩, ⟨3, 30⟩, ⟨4, 20⟩, ⟨5, 10⟩], 5⟩ 6 15 =
        some (s', Outcome.evicted) ∧
      s'.table.length = MAX_NEIGHBORS ∧
      (⟨6, 15⟩ : Neighbor) ∈ s'.table ∧
      (∀ n ∈ ([⟨1, 50⟩, ⟨2, 40⟩, ⟨3, 30⟩, ⟨4, 20⟩, ⟨5, 10⟩] : List Neighbor),
        (10 : Nat) ≤ n.last_rssi) ∧
      s'.table.count ⟨5, 10⟩ + 1 =
        ([⟨1, 50⟩, ⟨2, 40⟩, ⟨3, 30⟩, ⟨4, 20⟩, ⟨5, 10⟩] : List Neighbor).count ⟨5, 10⟩ ∧
      s'.used = MAX_NEIGHBORS :=
  observe_eviction ⟨[⟨1, 50⟩, ⟨2, 40⟩, ⟨3, 30⟩, ⟨4, 20⟩, ⟨5, 10⟩], 5⟩ 6 15 ⟨5, 10⟩
    (by decide) (by decide) (by decide) (by decide) (by decide) (by decide)

/-- Claim C3: when the table is full (pool exhausted, `MAX_NEIGHBORS`
records), satisfies the sort invariant, and an unknown address arrives
with quality at most the current minimum (the tail quality, which is
the minimum of the table), the call reports rejection and returns the
state completely unchanged: same size, same records, same qualities,
same order. -/
theorem observe_rejection (s : CacheState) (src rssi : Nat) (w : Neighbor)
    (hu : s.used = MAX_NEIGHBORS) (hl : s.table.length = MAX_NEIGHBORS)
    (hsort : sortedDesc s.table) (hnew : src ∉ s.table.map Neighbor.addr)
    (hw : s.table.getLast? = some w) (hq : rssi ≤ w.last_rssi) :
    broadcast_recv MAX_NEIGHBORS s src rssi = some (s, Outcome.rejected) ∧
      (∀ n ∈ s.table, w.last_rssi ≤ n.last_rssi) := by
  have hfound : ¬ (s.table.any (fun n => n.addr = src) = true) := fun hc =>
    hnew ((any_addr_iff s.table src).mp hc)
  have hroom : ¬ s.used < MAX_NEIGHBORS := by omega
  have hbeat : ¬ w.last_rssi < rssi := by omega
  exact ⟨by simp [broadcast_recv, hfound, hroom, hw, hbeat],
    sortedDesc_getLast_min hsort hw⟩

/-- Witness for claim C3 at a concrete input: a full sorted table of
five records, newcomer with quality 10 not beating the minimum 10. -/
theorem observe_rejection_witness :
    broadcast_recv MAX_NEIGHBORS
        ⟨[⟨1, 50⟩, ⟨2, 40⟩, ⟨3, 30⟩, ⟨4, 20⟩, ⟨5, 10⟩], 5⟩ 6 10 =
      some (⟨[⟨1, 50⟩, ⟨2, 40⟩, ⟨3, 30⟩, ⟨4, 20⟩, ⟨5, 10⟩], 5⟩, Outcome.rejected) ∧
      (∀ n ∈ ([⟨1, 50⟩, ⟨2, 40⟩, ⟨3, 30⟩, ⟨4, 20⟩, ⟨5, 10⟩] : List Neighbor),
        (10 : Nat) ≤ n.last_rssi) :=
  observe_rejection ⟨[⟨1, 50⟩, ⟨2, 40⟩, ⟨3, 30⟩, ⟨4, 20⟩, ⟨5, 10⟩], 5⟩ 6 10 ⟨5, 10⟩
    (by decide) (by decide) (by decide) (by decide) (by decide) (by decide)

/-- Counterexample to claim C7: the re-sort is not stable.  In the
table with records (addr 0, quality 5), (addr 1, quality 3),
(addr 2, quality 5), the two records of equal quality 5 appear in
address order 0 then 2 before sorting, and in address order 2 then 0
after sorting: `sort_list_based_on_rssi` reverses the relative order of
entries with equal signal quality. -/
theorem sort_not_stable_counterexample :
    (([⟨0, 5⟩, ⟨1, 3⟩, ⟨2, 5⟩] : List Neighbor).filter
      (fun n => n.last_rssi == 5)).map Neighbor.addr = [0, 2] ∧
    ((sort_list_based_on_rssi [⟨0, 5⟩, ⟨1, 3⟩, ⟨2, 5⟩]).filter
      (fun n => n.last_rssi == 5)).map Neighbor.addr = [2, 0] ∧
    sort_list_based_on_rssi [⟨0, 5⟩, ⟨1, 3⟩, ⟨2, 5⟩] =
      [⟨2, 5⟩, ⟨0, 5⟩, ⟨1, 3⟩] := by
  refine ⟨rfl, ?_, ?_⟩ <;> rfl

/-- Claim C7 as amended: the re-sort performed after a mutation is a
deterministic function that always yields a table in non-increasing
order of signal quality containing exactly the records of its input (a
permutation), but it does not in general preserve the relative order of
entries with equal signal quality. -/
theorem sort_sorted_and_perm (l : List Neighbor) :
    sortedDesc (sort_list_based_on_rssi l) ∧ (sort_list_based_on_rssi l).Perm l :=
  ⟨sort_list_sorted l, sort_list_perm l⟩

/-- Claim C8 (code bug): with the pool capacity configured as zero, the
very first observation does not take a clean rejection path: the lookup
fails, `memb_alloc` fails, `list_tail` returns NULL on the empty list,
and `lowest_rssi_neighbor->last_rssi` dereferences the NULL pointer —
modelled by the `none` result. -/
theorem observe_zero_capacity_null_deref :
    broadcast_recv 0 initState 0 0 = none := rfl

/-- Claim C9: the while loop of `sort_list_based_on_rssi` terminates on
every finite list: after at most `invMeasure l` swap iterations the
scan finds no out-of-order pair (the loop guard fails), and any further
iteration budget leaves the result unchanged, so the function is total
and `sort_list_based_on_rssi` computes the loop fixpoint. -/
theorem sort_list_terminates (l : List Neighbor) :
    findInv (sortIter (invMeasure l) l) = none ∧
    (∀ m, sortIter (invMeasure l + m) l = sortIter (invMeasure l) l) ∧
    sort_list_based_on_rssi l = sortIter (invMeasure l) l :=
  ⟨sortIter_fix (invMeasure l) l le_rfl,
   fun m => sortIter_stable (invMeasure l) l le_rfl m, rfl⟩

/-- Claim C10: starting from the empty table with a pool of at least
one slot, every run is defined — no NULL pointer is ever dereferenced
and no NULL record is ever linked (a `none` result would mark exactly
those events) — and the pool occupancy always equals the list length
and stays within capacity, so whenever `memb_alloc` fails the list
really holds `cap` entries, `list_tail` returns a valid record, and the
second `memb_alloc` after freeing succeeds. -/
theorem observe_no_null_deref (cap : Nat) (hcap : 1 ≤ cap)
    (obs : List (Nat × Nat)) :
    ∃ s, run cap obs = some s ∧ s.used = s.table.length ∧
      s.table.length ≤ cap := by
  obtain ⟨s, hrun, hinv⟩ := run_inv cap hcap obs
  exact ⟨s, hrun, hinv.1, hinv.2.1⟩

/-- Witness for claim C10 at a concrete input: capacity one, two
observations, the second of which takes the eviction path. -/
theorem observe_no_null_deref_witness :
    (1 : Nat) ≤ 1 ∧
    ∃ s, run 1 [(0, 5), (1, 9)] = some s ∧ s.used = s.table.length ∧
      s.table.length ≤ 1 :=
  ⟨le_rfl, observe_no_null_deref 1 (by decide) [(0, 5), (1, 9)]⟩
